import Mathlib

/-!
Verification of the transactions repository: a shallow embedding of the
fixed-point `Amount` type (src/amount.rs) and the per-client account state
machine (src/client.rs), with proofs of the spec's claims about them.

`Amount` is a `u64` count of ten-thousandths; we model amounts as `Nat`
with the `u64` bound `UMAX` enforced at every checked operation, exactly
as the Rust code does.  Account operations are modelled as functions
`Client → Option (Except ClientError Unit × Client)`: the `Option` layer
models the `unwrap()` calls in the Rust source (`none` = panic), the
`Except` layer the `Result` returned to the caller, and the second
component the post-state of the account (on an error the Rust code
returns before mutating anything, which the definitions reflect).
-/

/-- Maximum raw value of an `Amount`: `u64::MAX`, the bound enforced by the
checked arithmetic in src/amount.rs. -/
def UMAX : Nat := 2 ^ 64 - 1

namespace Amount

/-- Model of `Amount::checked_add` (src/amount.rs): `u64::checked_add` on the
raw counts of ten-thousandths. -/
def checked_add (a b : Nat) : Option Nat :=
  if a + b ≤ UMAX then some (a + b) else none

/-- Model of `Amount::checked_sub` (src/amount.rs): `u64::checked_sub` on the
raw counts. -/
def checked_sub (a b : Nat) : Option Nat :=
  if b ≤ a then some (a - b) else none

/-- Model of `u64::checked_mul`, used by amount parsing (src/amount.rs). -/
def checked_mul (a b : Nat) : Option Nat :=
  if a * b ≤ UMAX then some (a * b) else none

end Amount

/-- Model of the `Deposit` record of src/client.rs: amount and disputed flag. -/
structure Deposit where
  amount : Nat
  disputed : Bool
deriving DecidableEq

/-- Model of the `Client` struct of src/client.rs.  The Rust `HashMap` of
deposits is modelled as an association list from transaction id to deposit
record; deposits only ever inserts fresh keys, so key order never matters
and keys stay pairwise distinct. -/
structure Client where
  deposits : List (Nat × Deposit)
  available : Nat
  total : Nat
  locked : Bool
deriving DecidableEq

/-- Model of `ClientError` (src/client.rs). -/
inductive ClientError where
  | Overflow
  | InsufficientFunds
  | UnknownTransactionId
  | DuplicateTransactionId
  | AlreadyDisputed
  | NotDisputed
  | Locked
deriving DecidableEq

/-- The `Default` account of src/client.rs: `#[derive(Default)]` gives the
empty deposit map, zero balances and `locked = false`. -/
def Client.default : Client := ⟨[], 0, 0, false⟩

/-- Lookup in the modelled deposit map (`HashMap::get` / `entry` probing). -/
def lookupTx : List (Nat × Deposit) → Nat → Option Deposit
  | [], _ => none
  | (k, d) :: t, tx => if k = tx then some d else lookupTx t tx

/-- Mark or unmark the record stored under `tx` (the `deposit.disputed = b`
assignment through `get_mut` / `entry` in src/client.rs). -/
def setDisputed (ds : List (Nat × Deposit)) (tx : Nat) (b : Bool) :
    List (Nat × Deposit) :=
  ds.map fun p => if p.1 = tx then (p.1, { p.2 with disputed := b }) else p

/-- Remove the record stored under `tx` (`entry.remove()` in chargeback). -/
def removeTx (ds : List (Nat × Deposit)) (tx : Nat) : List (Nat × Deposit) :=
  ds.filter fun p => p.1 ≠ tx

/-- Model of `Client::deposit` (src/client.rs lines 63–93).  The checked
add on `total` runs first (error `Overflow`), then the duplicate-id check,
then the unchecked `checked_add(...).unwrap()` on `available` (`none`
models that panic), and only then are the three fields committed. -/
def Client.deposit (c : Client) (transaction_id amount : Nat) :
    Option (Except ClientError Unit × Client) :=
  if c.locked then some (.error .Locked, c) else
  match Amount.checked_add c.total amount with
  | none => some (.error .Overflow, c)
  | some total =>
    match lookupTx c.deposits transaction_id with
    | some _ => some (.error .DuplicateTransactionId, c)
    | none =>
      match Amount.checked_add c.available amount with
      | none => none
      | some available =>
        some (.ok (), { c with
          available := available
          total := total
          deposits := (transaction_id, ⟨amount, false⟩) :: c.deposits })

/-- Model of `Client::withdraw` (src/client.rs lines 95–107): checked sub on
`available` (error `InsufficientFunds`), then unchecked sub on `total`
(`none` models the `unwrap()` panic). -/
def Client.withdraw (c : Client) (amount : Nat) :
    Option (Except ClientError Unit × Client) :=
  if c.locked then some (.error .Locked, c) else
  match Amount.checked_sub c.available amount with
  | none => some (.error .InsufficientFunds, c)
  | some available =>
    match Amount.checked_sub c.total amount with
    | none => none
    | some total => some (.ok (), { c with available := available, total := total })

/-- Model of `Client::dispute` (src/client.rs lines 109–131). -/
def Client.dispute (c : Client) (transaction_id : Nat) :
    Option (Except ClientError Unit × Client) :=
  if c.locked then some (.error .Locked, c) else
  match lookupTx c.deposits transaction_id with
  | none => some (.error .UnknownTransactionId, c)
  | some d =>
    if d.disputed then some (.error .AlreadyDisputed, c) else
    match Amount.checked_sub c.available d.amount with
    | none => some (.error .InsufficientFunds, c)
    | some available =>
      some (.ok (), { c with
        available := available
        deposits := setDisputed c.deposits transaction_id true })

/-- Model of `Client::resolve` (src/client.rs lines 133–151): the add back to
`available` is `checked_add(...).unwrap()`, so `none` models that panic. -/
def Client.resolve (c : Client) (transaction_id : Nat) :
    Option (Except ClientError Unit × Client) :=
  if c.locked then some (.error .Locked, c) else
  match lookupTx c.deposits transaction_id with
  | none => some (.error .UnknownTransactionId, c)
  | some d =>
    if !d.disputed then some (.error .NotDisputed, c) else
    match Amount.checked_add c.available d.amount with
    | none => none
    | some available =>
      some (.ok (), { c with
        available := available
        deposits := setDisputed c.deposits transaction_id false })

/-- Model of `Client::chargeback` (src/client.rs lines 153–183): the sub from
`total` is `checked_sub(...).unwrap()`, so `none` models that panic; on
success the record is removed and the account locked. -/
def Client.chargeback (c : Client) (transaction_id : Nat) :
    Option (Except ClientError Unit × Client) :=
  if c.locked then some (.error .Locked, c) else
  match lookupTx c.deposits transaction_id with
  | none => some (.error .UnknownTransactionId, c)
  | some d =>
    if !d.disputed then some (.error .NotDisputed, c) else
    match Amount.checked_sub c.total d.amount with
    | none => none
    | some total =>
      some (.ok (), { c with
        total := total
        deposits := removeTx c.deposits transaction_id
        locked := true })

/-- Model of `Client::held` (src/client.rs lines 189–192):
`total.checked_sub(available).unwrap()`; `none` models the panic. -/
def Client.held (c : Client) : Option Nat :=
  Amount.checked_sub c.total c.available

/-- One input operation of the account state machine, with its arguments. -/
inductive Op where
  | deposit (transaction_id amount : Nat)
  | withdraw (amount : Nat)
  | dispute (transaction_id : Nat)
  | resolve (transaction_id : Nat)
  | chargeback (transaction_id : Nat)

/-- Dispatch one operation to the matching `Client` method (as
`Clients::process_transaction` in src/clients.rs does). -/
def Client.apply (c : Client) : Op → Option (Except ClientError Unit × Client)
  | .deposit tx amount => c.deposit tx amount
  | .withdraw amount => c.withdraw amount
  | .dispute tx => c.dispute tx
  | .resolve tx => c.resolve tx
  | .chargeback tx => c.chargeback tx

/-- Account states reachable from the default (empty) account by any
sequence of operations, successful or failing (a failing operation keeps
the same state, which `Client.apply` returns alongside the error). -/
inductive Reachable : Client → Prop
  | init : Reachable Client.default
  | step {c : Client} {o : Op} {r : Except ClientError Unit} {c' : Client} :
      Reachable c → Client.apply c o = some (r, c') → Reachable c'

/-- Keys of the modelled deposit map. -/
def txKeys (ds : List (Nat × Deposit)) : List Nat := ds.map Prod.fst

/-- Sum of the amounts of the deposit records currently marked disputed:
the held balance as the spec defines it. -/
def heldSum (ds : List (Nat × Deposit)) : Nat :=
  (ds.map fun p => if p.2.disputed then p.2.amount else 0).sum

/-- The internal account invariant of src/client.rs: distinct deposit keys,
`total = available + held`, and `total` within the `u64` range. -/
def ClientInv (c : Client) : Prop :=
  (txKeys c.deposits).Nodup ∧
  c.total = c.available + heldSum c.deposits ∧
  c.total ≤ UMAX

/-! Amount parsing and formatting (src/amount.rs).  Rust strings are
modelled as lists of characters. -/

/-- Test for an ASCII decimal digit: the ASCII part of the parsing regex's
`\d` class.  The regex crate's `\d` is Unicode-aware (`\p{Nd}`), and on a
non-ASCII decimal digit the source regex matches but `str::parse::<u64>`
then fails with `InvalidDigit`, reaching the panicking catch-all arm of the
error mapping in `TryFrom<&str> for Amount`; the parsing model below is
therefore stated, and used by the theorems, only on ASCII input, where
`\p{Nd}` coincides with `[0-9]` and that arm is unreachable. -/
def isDigitChar (c : Char) : Bool := 48 ≤ c.toNat && c.toNat ≤ 57

/-- Numeric value of an ASCII digit character. -/
def charToDigit (c : Char) : Nat := c.toNat - 48

/-- ASCII digit character of a value below ten. -/
def digitChar (d : Nat) : Char := Char.ofNat (48 + d)

/-- Value of a big-endian digit string, as `str::parse::<u64>` computes it
(here unbounded; the `u64` range check is applied at the use site). -/
def natFromDigits (l : List Char) : Nat :=
  l.foldl (fun a c => 10 * a + charToDigit c) 0

/-- Model of `AmountParseError` (src/amount.rs). -/
inductive AmountParseError where
  | InvalidFormat
  | TooLarge
deriving DecidableEq

/-- Model of `parse_decimal_part` (src/amount.rs lines 87–92): scale an up to
four digit fractional part to ten-thousandths. -/
def parse_decimal_part (s : List Char) : Nat :=
  natFromDigits s * 10 ^ (4 - s.length)

/-- Model of the regex match `^(\d+)(?:\.(\d{1,4}))?$` of src/amount.rs on
ASCII input, where `\d` is exactly `[0-9]` (see `isDigitChar`):
`some (integer digits, optional fractional digits)` when the string
matches, `none` otherwise.  The regex never backtracks usefully here (a
digit given back by `\d+` would have to match `\.` or the end), so the
maximal digit prefix is the integer capture. -/
def matchShape (s : List Char) : Option (List Char × Option (List Char)) :=
  let ip := s.takeWhile isDigitChar
  match s.dropWhile isDigitChar with
  | [] => if ip = [] then none else some (ip, none)
  | c :: fp =>
    if c = '.' ∧ ip ≠ [] ∧ fp ≠ [] ∧ fp.length ≤ 4 ∧ fp.all isDigitChar
    then some (ip, some fp) else none

/-- Model of `TryFrom<&str> for Amount` (src/amount.rs lines 53–83) on ASCII
input: regex match, `u64` parse of the integer capture (`PosOverflow`
becomes `TooLarge`), scaling of the fractional capture, and the final
checked `integer * 10000 + decimal`.  The source's error mapping also has a
panicking catch-all arm for `parse::<u64>` failures other than overflow; on
an ASCII-only string the integer capture is a nonempty `[0-9]` string, whose
parse can only fail with `PosOverflow`, so that arm is unreachable on this
model's domain and is not modelled (on non-ASCII Unicode-digit input the
source program panics; such strings are outside every theorem below). -/
def parseAmount (s : List Char) : Except AmountParseError Nat :=
  match matchShape s with
  | none => .error .InvalidFormat
  | some (ip, fpOpt) =>
    if UMAX < natFromDigits ip then .error .TooLarge
    else
      let decimal := match fpOpt with
        | some fp => parse_decimal_part fp
        | none => 0
      match Amount.checked_mul (natFromDigits ip) 10000 with
      | none => .error .TooLarge
      | some m =>
        match Amount.checked_add m decimal with
        | none => .error .TooLarge
        | some v => .ok v

/-- Big-endian decimal digit string of a number: helper with enough fuel to
terminate structurally, mirroring `u64`'s `Display`. -/
def natToDigitsAux : Nat → Nat → List Char → List Char
  | 0, _, acc => acc
  | fuel + 1, n, acc =>
    if n < 10 then digitChar n :: acc
    else natToDigitsAux fuel (n / 10) (digitChar (n % 10) :: acc)

/-- Big-endian decimal digit string of a number, no leading zeroes except a
bare `0`: the standard `Display` for `u64` used by `Display for Amount`. -/
def natToDigits (n : Nat) : List Char := natToDigitsAux (n + 1) n []

/-- Reference form of `natToDigits` via Mathlib's `Nat.digits`, used only in
proofs. -/
def natDigitsRef (n : Nat) : List Char :=
  if n = 0 then ['0'] else ((Nat.digits 10 n).map digitChar).reverse

/-- Left-pad a digit string with zeroes to width four: the `{:0>4}` format
specifier applied to a value below `10000`. -/
def pad4 (l : List Char) : List Char := List.replicate (4 - l.length) '0' ++ l

/-- Model of `Display for Amount` (src/amount.rs lines 27–34):
`write!(f, "{}.{:0>4}", self.0 / 10000, self.0 % 10000)`. -/
def formatAmount (v : Nat) : List Char :=
  natToDigits (v / 10000) ++ '.' :: pad4 (natToDigits (v % 10000))

/-- Normalize the leading zeroes of a digit string, keeping a bare `0` when
the string is all zeroes: how parsing then re-formatting treats the
integer part. -/
def dropLeadingZeros : List Char → List Char
  | [] => []
  | c :: t => if c = '0' ∧ t ≠ [] then dropLeadingZeros t else c :: t

/-- The exact shape accepted by the source regex `^(\d+)(?:\.(\d{1,4}))?$`:
a nonempty digit string, optionally followed by a separator and one to
four more digits. -/
def ValidShape (s : List Char) : Prop :=
  (s ≠ [] ∧ ∀ c ∈ s, isDigitChar c = true) ∨
  (∃ ip fp, s = ip ++ '.' :: fp ∧ ip ≠ [] ∧ (∀ c ∈ ip, isDigitChar c = true) ∧
    fp ≠ [] ∧ fp.length ≤ 4 ∧ (∀ c ∈ fp, isDigitChar c = true))

/-- A reachable account with one disputed deposit of 1.0000 (raw 10000),
used to instantiate theorems about dispute state at a concrete input. -/
def cDisputed : Client := ⟨[(1, ⟨10000, true⟩)], 0, 10000, false⟩

/-- A reachable account whose total is the largest representable amount,
used to instantiate the deposit overflow-versus-duplicate precedence. -/
def cMax : Client := ⟨[(1, ⟨UMAX, false⟩)], UMAX, UMAX, false⟩

/-- A locked account, used to instantiate the absorbing-lock theorem. -/
def cLocked : Client := ⟨[(2, ⟨20000, false⟩)], 20000, 20000, true⟩
/-- An unlocked account holding a single undisputed deposit of 1.0000,
used to instantiate the dispute success case at a concrete input. -/
def cOneDep : Client := ⟨[(1, ⟨10000, false⟩)], 10000, 10000, false⟩

theorem checked_add_eq_some {a b x : Nat} :
    Amount.checked_add a b = some x ↔ a + b ≤ UMAX ∧ x = a + b := by
  unfold Amount.checked_add
  split <;> simp_all <;> omega

theorem checked_add_eq_none {a b : Nat} :
    Amount.checked_add a b = none ↔ UMAX < a + b := by
  unfold Amount.checked_add
  split <;> simp_all

theorem checked_sub_eq_some {a b x : Nat} :
    Amount.checked_sub a b = some x ↔ b ≤ a ∧ x = a - b := by
  unfold Amount.checked_sub
  split <;> simp_all <;> omega

theorem checked_sub_eq_none {a b : Nat} :
    Amount.checked_sub a b = none ↔ a < b := by
  unfold Amount.checked_sub
  split <;> simp_all

theorem heldSum_nil : heldSum [] = 0 := rfl

theorem heldSum_cons (p : Nat × Deposit) (t : List (Nat × Deposit)) :
    heldSum (p :: t) = (if p.2.disputed then p.2.amount else 0) + heldSum t := by
  simp [heldSum]


theorem txKeys_cons (k : Nat) (d : Deposit) (t : List (Nat × Deposit)) :
    txKeys ((k, d) :: t) = k :: txKeys t := rfl

theorem lookupTx_cons_self (k : Nat) (d : Deposit) (t : List (Nat × Deposit)) :
    lookupTx ((k, d) :: t) k = some d := by
  simp [lookupTx]

theorem lookupTx_cons_ne {k tx : Nat} (h : k ≠ tx) (d : Deposit)
    (t : List (Nat × Deposit)) : lookupTx ((k, d) :: t) tx = lookupTx t tx := by
  simp [lookupTx, h]

theorem setDisputed_cons_self (k : Nat) (d : Deposit) (t : List (Nat × Deposit))
    (b : Bool) : setDisputed ((k, d) :: t) k b =
      (k, { d with disputed := b }) :: setDisputed t k b := by
  simp [setDisputed]

theorem setDisputed_cons_ne {k tx : Nat} (h : k ≠ tx) (d : Deposit)
    (t : List (Nat × Deposit)) (b : Bool) :
    setDisputed ((k, d) :: t) tx b = (k, d) :: setDisputed t tx b := by
  simp [setDisputed, h]

theorem removeTx_cons_self (k : Nat) (d : Deposit) (t : List (Nat × Deposit)) :
    removeTx ((k, d) :: t) k = removeTx t k := by
  simp [removeTx]

theorem removeTx_cons_ne {k tx : Nat} (h : k ≠ tx) (d : Deposit)
    (t : List (Nat × Deposit)) :
    removeTx ((k, d) :: t) tx = (k, d) :: removeTx t tx := by
  simp [removeTx, h]

theorem lookupTx_eq_none {ds : List (Nat × Deposit)} {tx : Nat} :
    lookupTx ds tx = none ↔ tx ∉ txKeys ds := by
  induction ds with
  | nil => simp [lookupTx, txKeys]
  | cons p t ih =>
    obtain ⟨k, d⟩ := p
    rw [txKeys_cons, List.mem_cons]
    by_cases hk : k = tx
    · subst hk
      rw [lookupTx_cons_self]
      simp
    · rw [lookupTx_cons_ne hk, ih]
      constructor
      · intro h hin
        rcases hin with h1 | h2
        · exact hk h1.symm
        · exact h h2
      · intro h hin
        exact h (Or.inr hin)

theorem mem_of_lookupTx {ds : List (Nat × Deposit)} {tx : Nat} {d : Deposit}
    (h : lookupTx ds tx = some d) : (tx, d) ∈ ds := by
  induction ds with
  | nil => simp [lookupTx] at h
  | cons p t ih =>
    obtain ⟨k, d'⟩ := p
    by_cases hk : k = tx
    · subst hk
      rw [lookupTx_cons_self, Option.some.injEq] at h
      subst h
      exact List.mem_cons_self _ _
    · rw [lookupTx_cons_ne hk] at h
      exact List.mem_cons_of_mem _ (ih h)

theorem amount_le_heldSum {ds : List (Nat × Deposit)} {tx : Nat} {d : Deposit}
    (hm : (tx, d) ∈ ds) (hd : d.disputed = true) : d.amount ≤ heldSum ds := by
  induction ds with
  | nil => simp at hm
  | cons p t ih =>
    rcases List.mem_cons.mp hm with h | h
    · subst h
      simp [heldSum_cons, hd]
    · calc d.amount ≤ heldSum t := ih h
        _ ≤ heldSum (p :: t) := by rw [heldSum_cons]; omega

theorem txKeys_setDisputed (ds : List (Nat × Deposit)) (tx : Nat) (b : Bool) :
    txKeys (setDisputed ds tx b) = txKeys ds := by
  induction ds with
  | nil => rfl
  | cons p t ih =>
    obtain ⟨k, d⟩ := p
    by_cases hk : k = tx
    · subst hk
      rw [setDisputed_cons_self, txKeys_cons, txKeys_cons, ih]
    · rw [setDisputed_cons_ne hk, txKeys_cons, txKeys_cons, ih]

theorem setDisputed_of_not_mem {ds : List (Nat × Deposit)} {tx : Nat} (b : Bool)
    (h : tx ∉ txKeys ds) : setDisputed ds tx b = ds := by
  induction ds with
  | nil => rfl
  | cons p t ih =>
    obtain ⟨k, d⟩ := p
    rw [txKeys_cons, List.mem_cons] at h
    push_neg at h
    rw [setDisputed_cons_ne (fun hh => h.1 hh.symm), ih h.2]

theorem removeTx_of_not_mem {ds : List (Nat × Deposit)} {tx : Nat}
    (h : tx ∉ txKeys ds) : removeTx ds tx = ds := by
  induction ds with
  | nil => rfl
  | cons p t ih =>
    obtain ⟨k, d⟩ := p
    rw [txKeys_cons, List.mem_cons] at h
    push_neg at h
    rw [removeTx_cons_ne (fun hh => h.1 hh.symm), ih h.2]

theorem heldSum_setDisputed_true {ds : List (Nat × Deposit)} {tx : Nat} {d : Deposit}
    (hnd : (txKeys ds).Nodup) (hl : lookupTx ds tx = some d) (hd : d.disputed = false) :
    heldSum (setDisputed ds tx true) = heldSum ds + d.amount := by
  induction ds with
  | nil => simp [lookupTx] at hl
  | cons p t ih =>
    obtain ⟨k, d'⟩ := p
    rw [txKeys_cons, List.nodup_cons] at hnd
    by_cases hk : k = tx
    · subst hk
      rw [lookupTx_cons_self, Option.some.injEq] at hl
      subst hl
      rw [setDisputed_cons_self, setDisputed_of_not_mem true hnd.1,
        heldSum_cons, heldSum_cons]
      simp [hd]
      omega
    · rw [lookupTx_cons_ne hk] at hl
      rw [setDisputed_cons_ne hk, heldSum_cons, heldSum_cons, ih hnd.2 hl]
      omega

theorem heldSum_setDisputed_false {ds : List (Nat × Deposit)} {tx : Nat} {d : Deposit}
    (hnd : (txKeys ds).Nodup) (hl : lookupTx ds tx = some d) (hd : d.disputed = true) :
    heldSum ds = d.amount + heldSum (setDisputed ds tx false) := by
  induction ds with
  | nil => simp [lookupTx] at hl
  | cons p t ih =>
    obtain ⟨k, d'⟩ := p
    rw [txKeys_cons, List.nodup_cons] at hnd
    by_cases hk : k = tx
    · subst hk
      rw [lookupTx_cons_self, Option.some.injEq] at hl
      subst hl
      rw [setDisputed_cons_self, setDisputed_of_not_mem false hnd.1,
        heldSum_cons, heldSum_cons]
      simp [hd]
    · rw [lookupTx_cons_ne hk] at hl
      rw [setDisputed_cons_ne hk, heldSum_cons, heldSum_cons, ih hnd.2 hl]
      omega

theorem heldSum_removeTx {ds : List (Nat × Deposit)} {tx : Nat} {d : Deposit}
    (hnd : (txKeys ds).Nodup) (hl : lookupTx ds tx = some d) (hd : d.disputed = true) :
    heldSum ds = d.amount + heldSum (removeTx ds tx) := by
  induction ds with
  | nil => simp [lookupTx] at hl
  | cons p t ih =>
    obtain ⟨k, d'⟩ := p
    rw [txKeys_cons, List.nodup_cons] at hnd
    by_cases hk : k = tx
    · subst hk
      rw [lookupTx_cons_self, Option.some.injEq] at hl
      subst hl
      rw [removeTx_cons_self, removeTx_of_not_mem hnd.1, heldSum_cons]
      simp [hd]
    · rw [lookupTx_cons_ne hk] at hl
      rw [removeTx_cons_ne hk, heldSum_cons, heldSum_cons, ih hnd.2 hl]
      omega

theorem txKeys_removeTx_nodup {ds : List (Nat × Deposit)} {tx : Nat}
    (hnd : (txKeys ds).Nodup) : (txKeys (removeTx ds tx)).Nodup := by
  have hsub : List.Sublist (txKeys (removeTx ds tx)) (txKeys ds) :=
    List.Sublist.map Prod.fst (List.filter_sublist ds)
  exact List.Nodup.sublist hsub hnd

theorem lookupTx_removeTx (ds : List (Nat × Deposit)) (tx : Nat) :
    lookupTx (removeTx ds tx) tx = none := by
  rw [lookupTx_eq_none]
  intro hmem
  simp only [txKeys, removeTx, List.mem_map] at hmem
  obtain ⟨p, hp, hfst⟩ := hmem
  have := List.of_mem_filter hp
  simp [hfst] at this

theorem lookupTx_setDisputed (ds : List (Nat × Deposit)) (tx : Nat) (b : Bool) :
    lookupTx (setDisputed ds tx b) tx =
      (lookupTx ds tx).map fun d => { d with disputed := b } := by
  induction ds with
  | nil => rfl
  | cons p t ih =>
    obtain ⟨k, d'⟩ := p
    by_cases hk : k = tx
    · subst hk
      rw [setDisputed_cons_self, lookupTx_cons_self, lookupTx_cons_self]
      rfl
    · rw [setDisputed_cons_ne hk, lookupTx_cons_ne hk, lookupTx_cons_ne hk]
      exact ih

theorem deposit_inversion {c : Client} {tx amount : Nat} {r : Except ClientError Unit}
    {c' : Client} (h : c.deposit tx amount = some (r, c')) :
    (c' = c ∧ ∃ e, r = Except.error e) ∨
    (r = Except.ok () ∧ c.locked = false ∧ c.total + amount ≤ UMAX ∧
      lookupTx c.deposits tx = none ∧ c.available + amount ≤ UMAX ∧
      c' = { c with
        available := c.available + amount
        total := c.total + amount
        deposits := (tx, ⟨amount, false⟩) :: c.deposits }) := by
  unfold Client.deposit at h
  split at h
  · left
    simp only [Option.some.injEq, Prod.mk.injEq] at h
    exact ⟨h.2.symm, _, h.1.symm⟩
  next hlocked =>
    split at h
    next heq =>
      left
      simp only [Option.some.injEq, Prod.mk.injEq] at h
      exact ⟨h.2.symm, _, h.1.symm⟩
    next total heq =>
      split at h
      next dd heq2 =>
        left
        simp only [Option.some.injEq, Prod.mk.injEq] at h
        exact ⟨h.2.symm, _, h.1.symm⟩
      next heq2 =>
        split at h
        next heq3 => exact absurd h (by simp)
        next available heq3 =>
          right
          rw [checked_add_eq_some] at heq heq3
          simp only [Option.some.injEq, Prod.mk.injEq] at h
          refine ⟨h.1.symm, by simpa using hlocked, heq.1, heq2, heq3.1, ?_⟩
          rw [← h.2, heq.2, heq3.2]

theorem withdraw_inversion {c : Client} {amount : Nat} {r : Except ClientError Unit}
    {c' : Client} (h : c.withdraw amount = some (r, c')) :
    (c' = c ∧ ∃ e, r = Except.error e) ∨
    (r = Except.ok () ∧ c.locked = false ∧ amount ≤ c.available ∧ amount ≤ c.total ∧
      c' = { c with available := c.available - amount, total := c.total - amount }) := by
  unfold Client.withdraw at h
  split at h
  · left
    simp only [Option.some.injEq, Prod.mk.injEq] at h
    exact ⟨h.2.symm, _, h.1.symm⟩
  next hlocked =>
    split at h
    next heq =>
      left
      simp only [Option.some.injEq, Prod.mk.injEq] at h
      exact ⟨h.2.symm, _, h.1.symm⟩
    next available heq =>
      split at h
      next heq2 => exact absurd h (by simp)
      next total heq2 =>
        right
        rw [checked_sub_eq_some] at heq heq2
        simp only [Option.some.injEq, Prod.mk.injEq] at h
        refine ⟨h.1.symm, by simpa using hlocked, heq.1, heq2.1, ?_⟩
        rw [← h.2, heq.2, heq2.2]

theorem dispute_inversion {c : Client} {tx : Nat} {r : Except ClientError Unit}
    {c' : Client} (h : c.dispute tx = some (r, c')) :
    (c' = c ∧ ∃ e, r = Except.error e) ∨
    (r = Except.ok () ∧ c.locked = false ∧ ∃ d, lookupTx c.deposits tx = some d ∧
      d.disputed = false ∧ d.amount ≤ c.available ∧
      c' = { c with
        available := c.available - d.amount
        deposits := setDisputed c.deposits tx true }) := by
  unfold Client.dispute at h
  split at h
  · left
    simp only [Option.some.injEq, Prod.mk.injEq] at h
    exact ⟨h.2.symm, _, h.1.symm⟩
  next hlocked =>
    split at h
    next heq =>
      left
      simp only [Option.some.injEq, Prod.mk.injEq] at h
      exact ⟨h.2.symm, _, h.1.symm⟩
    next d heq =>
      split at h
      next hdisp =>
        left
        simp only [Option.some.injEq, Prod.mk.injEq] at h
        exact ⟨h.2.symm, _, h.1.symm⟩
      next hdisp =>
        split at h
        next heq2 =>
          left
          simp only [Option.some.injEq, Prod.mk.injEq] at h
          exact ⟨h.2.symm, _, h.1.symm⟩
        next available heq2 =>
          right
          rw [checked_sub_eq_some] at heq2
          simp only [Option.some.injEq, Prod.mk.injEq] at h
          refine ⟨h.1.symm, by simpa using hlocked, d, heq,
            by simpa using hdisp, heq2.1, ?_⟩
          rw [← h.2, heq2.2]

theorem resolve_inversion {c : Client} {tx : Nat} {r : Except ClientError Unit}
    {c' : Client} (h : c.resolve tx = some (r, c')) :
    (c' = c ∧ ∃ e, r = Except.error e) ∨
    (r = Except.ok () ∧ c.locked = false ∧ ∃ d, lookupTx c.deposits tx = some d ∧
      d.disputed = true ∧ c.available + d.amount ≤ UMAX ∧
      c' = { c with
        available := c.available + d.amount
        deposits := setDisputed c.deposits tx false }) := by
  unfold Client.resolve at h
  split at h
  · left
    simp only [Option.some.injEq, Prod.mk.injEq] at h
    exact ⟨h.2.symm, _, h.1.symm⟩
  next hlocked =>
    split at h
    next heq =>
      left
      simp only [Option.some.injEq, Prod.mk.injEq] at h
      exact ⟨h.2.symm, _, h.1.symm⟩
    next d heq =>
      split at h
      next hdisp =>
        left
        simp only [Option.some.injEq, Prod.mk.injEq] at h
        exact ⟨h.2.symm, _, h.1.symm⟩
      next hdisp =>
        split at h
        next heq2 => exact absurd h (by simp)
        next available heq2 =>
          right
          rw [checked_add_eq_some] at heq2
          simp only [Option.some.injEq, Prod.mk.injEq] at h
          refine ⟨h.1.symm, by simpa using hlocked, d, heq,
            by simpa using hdisp, heq2.1, ?_⟩
          rw [← h.2, heq2.2]

theorem chargeback_inversion {c : Client} {tx : Nat} {r : Except ClientError Unit}
    {c' : Client} (h : c.chargeback tx = some (r, c')) :
    (c' = c ∧ ∃ e, r = Except.error e) ∨
    (r = Except.ok () ∧ c.locked = false ∧ ∃ d, lookupTx c.deposits tx = some d ∧
      d.disputed = true ∧ d.amount ≤ c.total ∧
      c' = { c with
        total := c.total - d.amount
        deposits := removeTx c.deposits tx
        locked := true }) := by
  unfold Client.chargeback at h
  split at h
  · left
    simp only [Option.some.injEq, Prod.mk.injEq] at h
    exact ⟨h.2.symm, _, h.1.symm⟩
  next hlocked =>
    split at h
    next heq =>
      left
      simp only [Option.some.injEq, Prod.mk.injEq] at h
      exact ⟨h.2.symm, _, h.1.symm⟩
    next d heq =>
      split at h
      next hdisp =>
        left
        simp only [Option.some.injEq, Prod.mk.injEq] at h
        exact ⟨h.2.symm, _, h.1.symm⟩
      next hdisp =>
        split at h
        next heq2 => exact absurd h (by simp)
        next total heq2 =>
          right
          rw [checked_sub_eq_some] at heq2
          simp only [Option.some.injEq, Prod.mk.injEq] at h
          refine ⟨h.1.symm, by simpa using hlocked, d, heq,
            by simpa using hdisp, heq2.1, ?_⟩
          rw [← h.2, heq2.2]

theorem apply_inv {c : Client} {o : Op} {r : Except ClientError Unit} {c' : Client}
    (hInv : ClientInv c) (h : c.apply o = some (r, c')) : ClientInv c' := by
  obtain ⟨hnd, htot, hle⟩ := hInv
  cases o with
  | deposit tx amount =>
    rcases deposit_inversion h with ⟨rfl, -⟩ | ⟨-, -, hov, hlk, hav, rfl⟩
    · exact ⟨hnd, htot, hle⟩
    · refine ⟨?_, ?_, hov⟩
      · rw [txKeys_cons, List.nodup_cons]
        exact ⟨lookupTx_eq_none.mp hlk, hnd⟩
      · rw [heldSum_cons]
        simp only [show ((tx, (⟨amount, false⟩ : Deposit)).2).disputed = false from rfl,
          if_neg Bool.false_ne_true]
        omega
  | withdraw amount =>
    rcases withdraw_inversion h with ⟨rfl, -⟩ | ⟨-, -, hav, htl, rfl⟩
    · exact ⟨hnd, htot, hle⟩
    · exact ⟨hnd, by simp only; omega, by simp only; omega⟩
  | dispute tx =>
    rcases dispute_inversion h with ⟨rfl, -⟩ | ⟨-, -, d, hlk, hdisp, hav, rfl⟩
    · exact ⟨hnd, htot, hle⟩
    · refine ⟨by rw [txKeys_setDisputed]; exact hnd, ?_, hle⟩
      have hs := heldSum_setDisputed_true hnd hlk hdisp
      simp only
      omega
  | resolve tx =>
    rcases resolve_inversion h with ⟨rfl, -⟩ | ⟨-, -, d, hlk, hdisp, hav, rfl⟩
    · exact ⟨hnd, htot, hle⟩
    · refine ⟨by rw [txKeys_setDisputed]; exact hnd, ?_, hle⟩
      have hs := heldSum_setDisputed_false hnd hlk hdisp
      simp only
      omega
  | chargeback tx =>
    rcases chargeback_inversion h with ⟨rfl, -⟩ | ⟨-, -, d, hlk, hdisp, htl, rfl⟩
    · exact ⟨hnd, htot, hle⟩
    · refine ⟨txKeys_removeTx_nodup hnd, ?_, by simp only; omega⟩
      have hs := heldSum_removeTx hnd hlk hdisp
      simp only
      omega

theorem default_inv : ClientInv Client.default :=
  ⟨List.nodup_nil, rfl, by decide⟩

theorem reachable_inv {c : Client} (h : Reachable c) : ClientInv c := by
  induction h with
  | init => exact default_inv
  | step _ happly ih => exact apply_inv ih happly

theorem dispute_unknown_eq {c : Client} {tx : Nat} (h1 : c.locked = false)
    (h2 : lookupTx c.deposits tx = none) :
    c.dispute tx = some (.error .UnknownTransactionId, c) := by
  simp [Client.dispute, h1, h2]

theorem dispute_already_eq {c : Client} {tx : Nat} {d : Deposit}
    (h1 : c.locked = false) (h2 : lookupTx c.deposits tx = some d)
    (h3 : d.disputed = true) :
    c.dispute tx = some (.error .AlreadyDisputed, c) := by
  simp [Client.dispute, h1, h2, h3]

theorem dispute_insufficient_eq {c : Client} {tx : Nat} {d : Deposit}
    (h1 : c.locked = false) (h2 : lookupTx c.deposits tx = some d)
    (h3 : d.disputed = false) (h4 : c.available < d.amount) :
    c.dispute tx = some (.error .InsufficientFunds, c) := by
  simp [Client.dispute, h1, h2, h3, checked_sub_eq_none.mpr h4]

theorem dispute_ok_eq {c : Client} {tx : Nat} {d : Deposit}
    (h1 : c.locked = false) (h2 : lookupTx c.deposits tx = some d)
    (h3 : d.disputed = false) (h4 : d.amount ≤ c.available) :
    c.dispute tx = some (.ok (), { c with
      available := c.available - d.amount
      deposits := setDisputed c.deposits tx true }) := by
  simp [Client.dispute, h1, h2, h3, checked_sub_eq_some.mpr ⟨h4, rfl⟩]

theorem resolve_ok_eq {c : Client} {tx : Nat} {d : Deposit}
    (h1 : c.locked = false) (h2 : lookupTx c.deposits tx = some d)
    (h3 : d.disputed = true) (h4 : c.available + d.amount ≤ UMAX) :
    c.resolve tx = some (.ok (), { c with
      available := c.available + d.amount
      deposits := setDisputed c.deposits tx false }) := by
  simp [Client.resolve, h1, h2, h3, checked_add_eq_some.mpr ⟨h4, rfl⟩]

theorem chargeback_unknown_eq {c : Client} {tx : Nat} (h1 : c.locked = false)
    (h2 : lookupTx c.deposits tx = none) :
    c.chargeback tx = some (.error .UnknownTransactionId, c) := by
  simp [Client.chargeback, h1, h2]

theorem chargeback_nodispute_eq {c : Client} {tx : Nat} {d : Deposit}
    (h1 : c.locked = false) (h2 : lookupTx c.deposits tx = some d)
    (h3 : d.disputed = false) :
    c.chargeback tx = some (.error .NotDisputed, c) := by
  simp [Client.chargeback, h1, h2, h3]

theorem chargeback_ok_eq {c : Client} {tx : Nat} {d : Deposit}
    (h1 : c.locked = false) (h2 : lookupTx c.deposits tx = some d)
    (h3 : d.disputed = true) (h4 : d.amount ≤ c.total) :
    c.chargeback tx = some (.ok (), { c with
      total := c.total - d.amount
      deposits := removeTx c.deposits tx
      locked := true }) := by
  simp [Client.chargeback, h1, h2, h3, checked_sub_eq_some.mpr ⟨h4, rfl⟩]

theorem reachable_cOneDep : Reachable cOneDep :=
  @Reachable.step Client.default (Op.deposit 1 10000) (Except.ok ()) cOneDep
    Reachable.init rfl

theorem reachable_cDisputed : Reachable cDisputed :=
  @Reachable.step cOneDep (Op.dispute 1) (Except.ok ()) cDisputed
    reachable_cOneDep rfl

theorem reachable_cMax : Reachable cMax :=
  @Reachable.step Client.default (Op.deposit 1 UMAX) (Except.ok ()) cMax
    Reachable.init rfl

/-- Claim C1: for every account reachable from the default (empty) account by
any sequence of deposit/withdraw/dispute/resolve/chargeback operations
(successful or failing), `total = available + held`, where `held` is the sum
of the amounts of all deposit records currently marked disputed; equivalently
`held = total - available` and `available ≤ total`. -/
theorem invariant_of_reachable {c : Client} (h : Reachable c) :
    c.total = c.available + heldSum c.deposits ∧
    heldSum c.deposits = c.total - c.available ∧
    c.available ≤ c.total := by
  obtain ⟨-, htot, -⟩ := reachable_inv h
  omega

theorem invariant_of_reachable_witness :
    cDisputed.total = cDisputed.available + heldSum cDisputed.deposits ∧
    heldSum cDisputed.deposits = cDisputed.total - cDisputed.available ∧
    cDisputed.available ≤ cDisputed.total :=
  invariant_of_reachable reachable_cDisputed

/-- Claim C2: for every account state and every operation among deposit,
withdraw, dispute, resolve and chargeback, if the operation returns an error
then the account's observable state (available, total, locked, and the full
deposit map including disputed flags) is exactly the same after the call as
before it — every operation is all-or-nothing. -/
theorem error_leaves_state_unchanged {c : Client} {o : Op} {e : ClientError}
    {c' : Client} (h : c.apply o = some (Except.error e, c')) : c' = c := by
  cases o with
  | deposit tx amount =>
    rcases deposit_inversion h with ⟨rfl, -⟩ | ⟨hok, -⟩
    · rfl
    · exact absurd hok (by simp)
  | withdraw amount =>
    rcases withdraw_inversion h with ⟨rfl, -⟩ | ⟨hok, -⟩
    · rfl
    · exact absurd hok (by simp)
  | dispute tx =>
    rcases dispute_inversion h with ⟨rfl, -⟩ | ⟨hok, -⟩
    · rfl
    · exact absurd hok (by simp)
  | resolve tx =>
    rcases resolve_inversion h with ⟨rfl, -⟩ | ⟨hok, -⟩
    · rfl
    · exact absurd hok (by simp)
  | chargeback tx =>
    rcases chargeback_inversion h with ⟨rfl, -⟩ | ⟨hok, -⟩
    · rfl
    · exact absurd hok (by simp)

theorem error_leaves_state_unchanged_witness :
    Client.apply Client.default (Op.withdraw 5) =
      some (Except.error ClientError.InsufficientFunds, Client.default) ∧
    Client.default = Client.default :=
  ⟨rfl, error_leaves_state_unchanged
    (show Client.apply Client.default (Op.withdraw 5) =
      some (Except.error ClientError.InsufficientFunds, Client.default) from rfl)⟩

/-- Claim C3: for every account with `locked = true`, every one of the five
operations (deposit with any tx and amount, withdraw with any amount,
dispute/resolve/chargeback with any tx) returns the Locked error and leaves
the entire account state unchanged, so locked remains true after every
subsequent operation — the locked state is absorbing. -/
theorem locked_is_absorbing (c : Client) (o : Op) (h : c.locked = true) :
    c.apply o = some (Except.error ClientError.Locked, c) ∧
    (∀ r c', c.apply o = some (r, c') → c'.locked = true) := by
  have heq : c.apply o = some (Except.error ClientError.Locked, c) := by
    cases o with
    | deposit tx amount => simp [Client.apply, Client.deposit, h]
    | withdraw amount => simp [Client.apply, Client.withdraw, h]
    | dispute tx => simp [Client.apply, Client.dispute, h]
    | resolve tx => simp [Client.apply, Client.resolve, h]
    | chargeback tx => simp [Client.apply, Client.chargeback, h]
  refine ⟨heq, ?_⟩
  intro r c' h'
  rw [heq] at h'
  simp only [Option.some.injEq, Prod.mk.injEq] at h'
  rw [← h'.2]
  exact h

theorem locked_is_absorbing_witness :
    Client.apply cLocked (Op.withdraw 1) =
      some (Except.error ClientError.Locked, cLocked) ∧
    (∀ r c', Client.apply cLocked (Op.withdraw 1) = some (r, c') →
      c'.locked = true) :=
  locked_is_absorbing cLocked (Op.withdraw 1) rfl

/-- Claim C4: for every unlocked account, dispute(tx) fails with
UnknownTransactionId if tx is not in the deposit map, fails with
AlreadyDisputed if the record for tx is already marked disputed, and fails
with InsufficientFunds if the record's amount is strictly greater than
available; otherwise it succeeds, decreasing available by that amount,
leaving total unchanged, and marking the record disputed. -/
theorem dispute_spec (c : Client) (tx : Nat) (h : c.locked = false) :
    (lookupTx c.deposits tx = none →
      c.dispute tx = some (Except.error ClientError.UnknownTransactionId, c)) ∧
    (∀ d, lookupTx c.deposits tx = some d → d.disputed = true →
      c.dispute tx = some (Except.error ClientError.AlreadyDisputed, c)) ∧
    (∀ d, lookupTx c.deposits tx = some d → d.disputed = false →
      c.available < d.amount →
      c.dispute tx = some (Except.error ClientError.InsufficientFunds, c)) ∧
    (∀ d, lookupTx c.deposits tx = some d → d.disputed = false →
      d.amount ≤ c.available →
      c.dispute tx = some (Except.ok (), { c with
        available := c.available - d.amount
        deposits := setDisputed c.deposits tx true }) ∧
      lookupTx (setDisputed c.deposits tx true) tx = some ⟨d.amount, true⟩) := by
  refine ⟨fun h2 => dispute_unknown_eq h h2,
    fun d h2 h3 => dispute_already_eq h h2 h3,
    fun d h2 h3 h4 => dispute_insufficient_eq h h2 h3 h4,
    fun d h2 h3 h4 => ⟨dispute_ok_eq h h2 h3 h4, ?_⟩⟩
  rw [lookupTx_setDisputed, h2]
  rfl

theorem dispute_spec_witness :
    (lookupTx cOneDep.deposits 1 = none →
      cOneDep.dispute 1 = some (Except.error ClientError.UnknownTransactionId, cOneDep)) ∧
    (∀ d, lookupTx cOneDep.deposits 1 = some d → d.disputed = true →
      cOneDep.dispute 1 = some (Except.error ClientError.AlreadyDisputed, cOneDep)) ∧
    (∀ d, lookupTx cOneDep.deposits 1 = some d → d.disputed = false →
      cOneDep.available < d.amount →
      cOneDep.dispute 1 = some (Except.error ClientError.InsufficientFunds, cOneDep)) ∧
    (∀ d, lookupTx cOneDep.deposits 1 = some d → d.disputed = false →
      d.amount ≤ cOneDep.available →
      cOneDep.dispute 1 = some (Except.ok (), { cOneDep with
        available := cOneDep.available - d.amount
        deposits := setDisputed cOneDep.deposits 1 true }) ∧
      lookupTx (setDisputed cOneDep.deposits 1 true) 1 = some ⟨d.amount, true⟩) :=
  dispute_spec cOneDep 1 rfl

/-- Claim C5: for every unlocked account holding a disputed deposit record
under tx, chargeback(tx) succeeds (here on reachable accounts, where the
account invariant makes the internal unchecked subtraction safe), decreasing
total by exactly that record's amount, removing the record from the deposit
map entirely, and setting locked = true, while leaving available unchanged;
on an unlocked account it fails with UnknownTransactionId when tx is absent
and with NotDisputed when the record exists but is not marked disputed. -/
theorem chargeback_spec (c : Client) (tx : Nat) (h : c.locked = false) :
    (lookupTx c.deposits tx = none →
      c.chargeback tx = some (Except.error ClientError.UnknownTransactionId, c)) ∧
    (∀ d, lookupTx c.deposits tx = some d → d.disputed = false →
      c.chargeback tx = some (Except.error ClientError.NotDisputed, c)) ∧
    (∀ d, Reachable c → lookupTx c.deposits tx = some d → d.disputed = true →
      d.amount ≤ c.total ∧
      c.chargeback tx = some (Except.ok (), { c with
        total := c.total - d.amount
        deposits := removeTx c.deposits tx
        locked := true }) ∧
      lookupTx (removeTx c.deposits tx) tx = none) := by
  refine ⟨fun h2 => chargeback_unknown_eq h h2,
    fun d h2 h3 => chargeback_nodispute_eq h h2 h3,
    fun d hr h2 h3 => ?_⟩
  obtain ⟨-, htot, -⟩ := reachable_inv hr
  have hle : d.amount ≤ c.total := by
    have := amount_le_heldSum (mem_of_lookupTx h2) h3
    omega
  exact ⟨hle, chargeback_ok_eq h h2 h3 hle, lookupTx_removeTx c.deposits tx⟩

theorem chargeback_spec_witness :
    (⟨10000, true⟩ : Deposit).amount ≤ cDisputed.total ∧
    cDisputed.chargeback 1 = some (Except.ok (), { cDisputed with
      total := cDisputed.total - (⟨10000, true⟩ : Deposit).amount
      deposits := removeTx cDisputed.deposits 1
      locked := true }) ∧
    lookupTx (removeTx cDisputed.deposits 1) 1 = none :=
  (chargeback_spec cDisputed 1 rfl).2.2 ⟨10000, true⟩ reachable_cDisputed rfl rfl

/-- Claim C6 counterexample: the account cMax (reachable by a single deposit
of the maximum representable amount under transaction id 1) is unlocked and
already knows transaction id 1, and a second deposit under id 1 would also
overflow the total; the claim requires DuplicateTransactionId, but the code
checks overflow first and reports Overflow. -/
theorem deposit_duplicate_overflow_cex :
    Reachable cMax ∧ cMax.locked = false ∧
    lookupTx cMax.deposits 1 = some ⟨UMAX, false⟩ ∧
    cMax.deposit 1 1 = some (Except.error ClientError.Overflow, cMax) ∧
    ClientError.Overflow ≠ ClientError.DuplicateTransactionId :=
  ⟨reachable_cMax, rfl, rfl, rfl, by simp⟩

/-- Claim C6 amended: for every unlocked account, deposit(tx, amount) fails
with Overflow whenever total + amount exceeds the representable range, even
when tx is already a known deposit id (the overflow check runs first); it
fails with DuplicateTransactionId when total + amount is representable and
tx is already known; and otherwise (on an account with available ≤ total,
as every reachable account has) it succeeds with available increased by
amount, total increased by amount, and a new unmarked deposit record stored
under tx. -/
theorem deposit_spec (c : Client) (tx amount : Nat) (h : c.locked = false) :
    (UMAX < c.total + amount →
      c.deposit tx amount = some (Except.error ClientError.Overflow, c)) ∧
    (∀ d, c.total + amount ≤ UMAX → lookupTx c.deposits tx = some d →
      c.deposit tx amount =
        some (Except.error ClientError.DuplicateTransactionId, c)) ∧
    (c.total + amount ≤ UMAX → lookupTx c.deposits tx = none →
      c.available ≤ c.total →
      c.deposit tx amount = some (Except.ok (), { c with
        available := c.available + amount
        total := c.total + amount
        deposits := (tx, ⟨amount, false⟩) :: c.deposits })) := by
  refine ⟨fun hov => ?_, fun d hle h2 => ?_, fun hle h2 hav => ?_⟩
  · simp [Client.deposit, h, checked_add_eq_none.mpr hov]
  · simp [Client.deposit, h, checked_add_eq_some.mpr ⟨hle, rfl⟩, h2]
  · have hav2 : c.available + amount ≤ UMAX := by omega
    simp [Client.deposit, h, checked_add_eq_some.mpr ⟨hle, rfl⟩, h2,
      checked_add_eq_some.mpr ⟨hav2, rfl⟩]

theorem deposit_spec_witness :
    (UMAX < Client.default.total + 30000 →
      Client.default.deposit 7 30000 =
        some (Except.error ClientError.Overflow, Client.default)) ∧
    (∀ d, Client.default.total + 30000 ≤ UMAX →
      lookupTx Client.default.deposits 7 = some d →
      Client.default.deposit 7 30000 =
        some (Except.error ClientError.DuplicateTransactionId, Client.default)) ∧
    (Client.default.total + 30000 ≤ UMAX →
      lookupTx Client.default.deposits 7 = none →
      Client.default.available ≤ Client.default.total →
      Client.default.deposit 7 30000 = some (Except.ok (), { Client.default with
        available := Client.default.available + 30000
        total := Client.default.total + 30000
        deposits := (7, ⟨30000, false⟩) :: Client.default.deposits })) :=
  deposit_spec Client.default 7 30000 rfl

/-- Claim C9: under the account invariant, the internal unchecked arithmetic
never fails: held() = total - available is always defined for every
reachable account, and in a successful resolve(tx) the addition
available + amount never overflows, so neither operation can panic — their
error branches (modelled by `none`) are unreachable. -/
theorem held_and_resolve_no_panic {c : Client} (h : Reachable c) :
    c.held = some (c.total - c.available) ∧ ∀ tx, c.resolve tx ≠ none := by
  obtain ⟨-, htot, hle⟩ := reachable_inv h
  constructor
  · exact checked_sub_eq_some.mpr ⟨by omega, rfl⟩
  · intro tx hnone
    unfold Client.resolve at hnone
    split at hnone
    · exact absurd hnone (by simp)
    next hlocked =>
      split at hnone
      · exact absurd hnone (by simp)
      next d heq =>
        split at hnone
        · exact absurd hnone (by simp)
        next hdisp =>
          split at hnone
          next heq2 =>
            rw [checked_add_eq_none] at heq2
            have hmem := amount_le_heldSum (mem_of_lookupTx heq)
              (by simpa using hdisp)
            omega
          next available heq2 => exact absurd hnone (by simp)

theorem held_and_resolve_no_panic_witness :
    cDisputed.held = some (cDisputed.total - cDisputed.available) ∧
    ∀ tx, cDisputed.resolve tx ≠ none :=
  held_and_resolve_no_panic reachable_cDisputed

/-- Claim C10: a resolved deposit can be disputed again: after a successful
resolve(tx) the account is still unlocked and the deposit record for tx is
still present and unmarked with its original amount, the total is unchanged,
and a subsequent dispute(tx) succeeds again whenever the record's amount is
at most the then-available balance, re-marking the record disputed — the
dispute/resolve cycle for one deposit may repeat. -/
theorem redispute_after_resolve {c : Client} {tx : Nat} {c' : Client}
    (h : c.resolve tx = some (Except.ok (), c')) :
    c'.locked = false ∧
    ∃ a, lookupTx c'.deposits tx = some ⟨a, false⟩ ∧ c'.total = c.total ∧
      (a ≤ c'.available →
        c'.dispute tx = some (Except.ok (), { c' with
          available := c'.available - a
          deposits := setDisputed c'.deposits tx true }) ∧
        lookupTx (setDisputed c'.deposits tx true) tx = some ⟨a, true⟩) := by
  rcases resolve_inversion h with ⟨-, e, habs⟩ | ⟨-, hlocked, d, hlk, -, -, rfl⟩
  · exact absurd habs (by simp)
  · refine ⟨hlocked, d.amount, ?_, rfl, fun hle => ?_⟩
    · rw [lookupTx_setDisputed, hlk]
      rfl
    · have hlk2 : lookupTx (setDisputed c.deposits tx false) tx =
          some ⟨d.amount, false⟩ := by
        rw [lookupTx_setDisputed, hlk]
        rfl
      refine ⟨@dispute_ok_eq _ tx ⟨d.amount, false⟩ hlocked hlk2 rfl hle, ?_⟩
      rw [lookupTx_setDisputed, hlk2]
      rfl

theorem redispute_after_resolve_witness :
    cOneDep.locked = false ∧
    ∃ a, lookupTx cOneDep.deposits 1 = some ⟨a, false⟩ ∧
      cOneDep.total = cDisputed.total ∧
      (a ≤ cOneDep.available →
        cOneDep.dispute 1 = some (Except.ok (), { cOneDep with
          available := cOneDep.available - a
          deposits := setDisputed cOneDep.deposits 1 true }) ∧
        lookupTx (setDisputed cOneDep.deposits 1 true) 1 = some ⟨a, true⟩) :=
  redispute_after_resolve
    (show cDisputed.resolve 1 = some (Except.ok (), cOneDep) from rfl)

theorem isDigitChar_iff {c : Char} :
    isDigitChar c = true ↔ 48 ≤ c.toNat ∧ c.toNat ≤ 57 := by
  simp [isDigitChar]

theorem charToDigit_lt_ten {c : Char} (h : isDigitChar c = true) :
    charToDigit c < 10 := by
  rw [isDigitChar_iff] at h
  unfold charToDigit
  omega

theorem digitChar_charToDigit {c : Char} (h : isDigitChar c = true) :
    digitChar (charToDigit c) = c := by
  rw [isDigitChar_iff] at h
  have h48 : 48 + (c.toNat - 48) = c.toNat := by omega
  rw [digitChar, charToDigit, h48, Char.ofNat_toNat]

theorem charToDigit_ne_zero {c : Char} (hd : isDigitChar c = true)
    (h : c ≠ '0') : charToDigit c ≠ 0 := by
  rw [isDigitChar_iff] at hd
  intro h0
  apply h
  have h48 : c.toNat = 48 := by
    unfold charToDigit at h0
    omega
  have hc := Char.ofNat_toNat c
  rw [h48] at hc
  rw [← hc]

theorem natFromDigits_go (l : List Char) (a : Nat) :
    l.foldl (fun x c => 10 * x + charToDigit c) a =
      a * 10 ^ l.length + natFromDigits l := by
  induction l generalizing a with
  | nil => simp [natFromDigits]
  | cons c t ih =>
    simp only [natFromDigits, List.foldl_cons, List.length_cons]
    rw [ih (10 * a + charToDigit c), ih (10 * 0 + charToDigit c)]
    ring

theorem natFromDigits_cons (c : Char) (t : List Char) :
    natFromDigits (c :: t) = charToDigit c * 10 ^ t.length + natFromDigits t := by
  show List.foldl _ (10 * 0 + charToDigit c) t = _
  rw [natFromDigits_go]
  norm_num

theorem natFromDigits_lt {l : List Char} (h : ∀ c ∈ l, isDigitChar c = true) :
    natFromDigits l < 10 ^ l.length := by
  induction l with
  | nil => simp [natFromDigits]
  | cons c t ih =>
    rw [natFromDigits_cons]
    have hd : charToDigit c < 10 := charToDigit_lt_ten (h c (List.mem_cons_self _ _))
    have ht := ih fun x hx => h x (List.mem_cons_of_mem _ hx)
    calc charToDigit c * 10 ^ t.length + natFromDigits t
        < charToDigit c * 10 ^ t.length + 10 ^ t.length := by omega
      _ = (charToDigit c + 1) * 10 ^ t.length := by ring
      _ ≤ 10 * 10 ^ t.length := Nat.mul_le_mul_right _ (by omega)
      _ = 10 ^ (c :: t).length := by rw [List.length_cons, pow_succ]; ring

theorem natFromDigits_ofDigits (l : List Char) :
    natFromDigits l = Nat.ofDigits 10 ((l.map charToDigit).reverse) := by
  induction l with
  | nil => simp [natFromDigits, Nat.ofDigits_nil]
  | cons c t ih =>
    rw [natFromDigits_cons, List.map_cons, List.reverse_cons, Nat.ofDigits_append,
      Nat.ofDigits_singleton, ih]
    simp only [List.length_reverse, List.length_map]
    ring

theorem natToDigitsAux_eq (fuel : Nat) :
    ∀ n acc, n < fuel → natToDigitsAux fuel n acc = natDigitsRef n ++ acc := by
  induction fuel with
  | zero =>
    intro n acc h
    omega
  | succ fuel ih =>
    intro n acc h
    by_cases h10 : n < 10
    · rw [natToDigitsAux, if_pos h10]
      by_cases h0 : n = 0
      · subst h0
        rfl
      · rw [natDigitsRef, if_neg h0, Nat.digits_of_lt 10 n h0 h10]
        rfl
    · rw [natToDigitsAux, if_neg h10]
      have hdiv : n / 10 < fuel := by
        have h1 : n / 10 < n := Nat.div_lt_self (by omega) (by omega)
        omega
      rw [ih (n / 10) (digitChar (n % 10) :: acc) hdiv]
      have hn0 : n ≠ 0 := by omega
      have hd0 : n / 10 ≠ 0 := by
        intro hh
        rw [Nat.div_eq_zero_iff (by omega)] at hh
        omega
      rw [natDigitsRef, if_neg hd0]
      conv_rhs => rw [natDigitsRef]
      rw [if_neg hn0,
        Nat.digits_def' (by norm_num : (1 : ℕ) < 10) (by omega : 0 < n)]
      simp [List.reverse_cons]

theorem natToDigits_eq (n : Nat) : natToDigits n = natDigitsRef n := by
  rw [natToDigits, natToDigitsAux_eq (n + 1) n [] (Nat.lt_succ_self n),
    List.append_nil]

theorem dropLeadingZeros_replicate (l : List Char) :
    ∃ k, l = List.replicate k '0' ++ dropLeadingZeros l := by
  induction l with
  | nil => exact ⟨0, rfl⟩
  | cons c t ih =>
    by_cases hc : c = '0' ∧ t ≠ []
    · obtain ⟨k, hk⟩ := ih
      refine ⟨k + 1, ?_⟩
      rw [dropLeadingZeros, if_pos hc, List.replicate_succ, List.cons_append,
        ← hk, hc.1]
    · exact ⟨0, by rw [dropLeadingZeros, if_neg hc]; rfl⟩

theorem dropLeadingZeros_cases (l : List Char) (h : l ≠ []) :
    dropLeadingZeros l = ['0'] ∨
    ∃ c t, dropLeadingZeros l = c :: t ∧ c ≠ '0' := by
  induction l with
  | nil => exact absurd rfl h
  | cons c t ih =>
    by_cases hc : c = '0' ∧ t ≠ []
    · rw [dropLeadingZeros, if_pos hc]
      exact ih hc.2
    · rw [dropLeadingZeros, if_neg hc]
      push_neg at hc
      by_cases hc0 : c = '0'
      · left
        rw [hc hc0, hc0]
      · right
        exact ⟨c, t, rfl, hc0⟩

theorem dropLeadingZeros_subset {l : List Char} {c : Char}
    (h : c ∈ dropLeadingZeros l) : c ∈ l := by
  obtain ⟨k, hk⟩ := dropLeadingZeros_replicate l
  rw [hk]
  exact List.mem_append_right _ h

theorem natFromDigits_replicate_zero (k : Nat) (m : List Char) :
    natFromDigits (List.replicate k '0' ++ m) = natFromDigits m := by
  induction k with
  | zero => rfl
  | succ k ih =>
    rw [List.replicate_succ, List.cons_append]
    exact ih

theorem natFromDigits_dropLeadingZeros (l : List Char) :
    natFromDigits (dropLeadingZeros l) = natFromDigits l := by
  obtain ⟨k, hk⟩ := dropLeadingZeros_replicate l
  conv_rhs => rw [hk]
  rw [natFromDigits_replicate_zero]

theorem pad4_dropLeadingZeros {l : List Char} (h : l.length = 4) :
    pad4 (dropLeadingZeros l) = l := by
  obtain ⟨k, hk⟩ := dropLeadingZeros_replicate l
  have hlen : k + (dropLeadingZeros l).length = 4 := by
    have hl := congrArg List.length hk
    simp at hl
    omega
  rw [pad4]
  conv_rhs => rw [hk]
  congr 2
  omega

theorem natToDigits_natFromDigits {l : List Char}
    (hd : ∀ c ∈ l, isDigitChar c = true) (hne : l ≠ []) :
    natToDigits (natFromDigits l) = dropLeadingZeros l := by
  rw [← natFromDigits_dropLeadingZeros l, natToDigits_eq]
  rcases dropLeadingZeros_cases l hne with h0 | ⟨c, t, hct, hc0⟩
  · rw [h0]
    rfl
  · rw [hct]
    have hdm : ∀ x ∈ c :: t, isDigitChar x = true := fun x hx =>
      hd x (dropLeadingZeros_subset (hct ▸ hx))
    have hofd := natFromDigits_ofDigits (c :: t)
    have hlt : ∀ x ∈ ((c :: t).map charToDigit).reverse, x < 10 := by
      intro x hx
      rw [List.mem_reverse, List.mem_map] at hx
      obtain ⟨ch, hch, rfl⟩ := hx
      exact charToDigit_lt_ten (hdm ch hch)
    have hsplit : ((c :: t).map charToDigit).reverse =
        (t.map charToDigit).reverse ++ [charToDigit c] := by
      rw [List.map_cons, List.reverse_cons]
    have hlast : ∀ h : ((c :: t).map charToDigit).reverse ≠ [],
        (((c :: t).map charToDigit).reverse).getLast h ≠ 0 := by
      intro h
      have h1 : (((c :: t).map charToDigit).reverse).getLast? =
          some (charToDigit c) := by
        rw [hsplit]
        exact List.getLast?_concat _
      rw [List.getLast?_eq_getLast _ h, Option.some.injEq] at h1
      rw [h1]
      exact charToDigit_ne_zero (hdm c (List.mem_cons_self _ _)) hc0
    have hdig := Nat.digits_ofDigits 10 (by norm_num)
      (((c :: t).map charToDigit).reverse) hlt hlast
    have hne0 : natFromDigits (c :: t) ≠ 0 := by
      intro hz
      rw [hofd] at hz
      rw [hz, Nat.digits_zero] at hdig
      rw [hsplit] at hdig
      simp at hdig
    rw [natDigitsRef, if_neg hne0, hofd, hdig, List.map_reverse,
      List.reverse_reverse, List.map_map]
    have hid : ∀ x ∈ c :: t, (digitChar ∘ charToDigit) x = id x := fun x hx =>
      digitChar_charToDigit (hdm x hx)
    rw [List.map_congr_left hid, List.map_id]

theorem takeWhile_all {p : Char → Bool} {s : List Char}
    (h : ∀ c ∈ s, p c = true) :
    s.takeWhile p = s ∧ s.dropWhile p = [] := by
  induction s with
  | nil => exact ⟨rfl, rfl⟩
  | cons c t ih =>
    have hc := h c (List.mem_cons_self _ _)
    have iht := ih fun x hx => h x (List.mem_cons_of_mem _ hx)
    rw [List.takeWhile_cons, List.dropWhile_cons, hc]
    simp [iht.1, iht.2]

theorem takeWhile_append_sep {p : Char → Bool} {I r : List Char} {x : Char}
    (hI : ∀ c ∈ I, p c = true) (hx : p x = false) :
    (I ++ x :: r).takeWhile p = I ∧ (I ++ x :: r).dropWhile p = x :: r := by
  induction I with
  | nil =>
    simp [List.takeWhile_cons, List.dropWhile_cons, hx]
  | cons c t ih =>
    have hc := hI c (List.mem_cons_self _ _)
    have iht := ih fun y hy => hI y (List.mem_cons_of_mem _ hy)
    rw [List.cons_append, List.takeWhile_cons, List.dropWhile_cons, hc]
    simp [iht.1, iht.2]

theorem matchShape_int {I : List Char} (hne : I ≠ [])
    (hI : ∀ c ∈ I, isDigitChar c = true) : matchShape I = some (I, none) := by
  obtain ⟨ht, hdp⟩ := takeWhile_all hI
  simp only [matchShape, ht, hdp]
  rw [if_neg hne]

theorem matchShape_frac {I F : List Char} (hIne : I ≠ [])
    (hI : ∀ c ∈ I, isDigitChar c = true) (hFne : F ≠ []) (hFlen : F.length ≤ 4)
    (hF : ∀ c ∈ F, isDigitChar c = true) :
    matchShape (I ++ '.' :: F) = some (I, some F) := by
  obtain ⟨ht, hdp⟩ :=
    @takeWhile_append_sep isDigitChar I F '.' hI (by decide)
  simp only [matchShape, ht, hdp]
  simp [hIne, hFne, hFlen, List.all_eq_true.mpr hF]

/-- Claim C7: for every string consisting of optional leading zeroes, then
digits, then a separator and exactly four fractional digits, whose value is
representable, format(parse(s)) equals s with the leading zeroes of the
integer part normalized away (a bare `0` integer part is kept). -/
theorem format_parse_roundtrip (I F : List Char) (hIne : I ≠ [])
    (hI : ∀ c ∈ I, isDigitChar c = true) (hFlen : F.length = 4)
    (hF : ∀ c ∈ F, isDigitChar c = true)
    (hrep : natFromDigits I * 10000 + natFromDigits F ≤ UMAX) :
    parseAmount (I ++ '.' :: F) =
      Except.ok (natFromDigits I * 10000 + natFromDigits F) ∧
    formatAmount (natFromDigits I * 10000 + natFromDigits F) =
      dropLeadingZeros I ++ '.' :: F := by
  have hFne : F ≠ [] := by
    intro h
    rw [h] at hFlen
    simp at hFlen
  have hms := matchShape_frac hIne hI hFne (by omega) hF
  have hFlt : natFromDigits F < 10000 := by
    have := natFromDigits_lt hF
    rw [hFlen] at this
    norm_num at this
    exact this
  constructor
  · have hdec : parse_decimal_part F = natFromDigits F := by
      rw [parse_decimal_part, hFlen]
      norm_num
    have h2 : Amount.checked_mul (natFromDigits I) 10000 =
        some (natFromDigits I * 10000) := by
      rw [Amount.checked_mul, if_pos (by omega)]
    have h3 : Amount.checked_add (natFromDigits I * 10000) (parse_decimal_part F) =
        some (natFromDigits I * 10000 + natFromDigits F) := by
      rw [hdec, Amount.checked_add, if_pos (by omega)]
    rw [parseAmount, hms]
    simp only [h2, h3]
    rw [if_neg (by omega)]
  · have hdiv : (natFromDigits I * 10000 + natFromDigits F) / 10000 =
        natFromDigits I := by omega
    have hmod : (natFromDigits I * 10000 + natFromDigits F) % 10000 =
        natFromDigits F := by omega
    rw [formatAmount, hdiv, hmod, natToDigits_natFromDigits hI hIne,
      natToDigits_natFromDigits hF hFne, pad4_dropLeadingZeros hFlen]

theorem format_parse_roundtrip_witness :
    parseAmount (['0', '0', '0', '1', '2', '3', '4'] ++ '.' ::
        ['0', '0', '0', '5']) =
      Except.ok (natFromDigits ['0', '0', '0', '1', '2', '3', '4'] * 10000 +
        natFromDigits ['0', '0', '0', '5']) ∧
    formatAmount (natFromDigits ['0', '0', '0', '1', '2', '3', '4'] * 10000 +
        natFromDigits ['0', '0', '0', '5']) =
      dropLeadingZeros ['0', '0', '0', '1', '2', '3', '4'] ++ '.' ::
        ['0', '0', '0', '5'] :=
  format_parse_roundtrip ['0', '0', '0', '1', '2', '3', '4'] ['0', '0', '0', '5']
    (by decide) (by decide) (by decide) (by decide) (by decide)

theorem matchShape_some_shape {s : List Char} {x : List Char × Option (List Char)}
    (h : matchShape s = some x) : ValidShape s := by
  have hdecomp := List.takeWhile_append_dropWhile isDigitChar s
  have htw : ∀ c ∈ s.takeWhile isDigitChar, isDigitChar c = true :=
    fun c hc => List.mem_takeWhile_imp hc
  rcases hdw : s.dropWhile isDigitChar with _ | ⟨c, fp⟩
  · simp only [matchShape, hdw] at h
    split at h
    · exact absurd h (by simp)
    next hne =>
      rw [hdw, List.append_nil] at hdecomp
      left
      refine ⟨fun hs => hne ?_, fun c hc => ?_⟩
      · rw [hs]
        rfl
      · rw [← hdecomp] at hc
        exact htw c hc
  · simp only [matchShape, hdw] at h
    split at h
    next hcond =>
      obtain ⟨hc, hipne, hfpne, hfplen, hfpall⟩ := hcond
      right
      refine ⟨s.takeWhile isDigitChar, fp, ?_, hipne, htw, hfpne, hfplen,
        List.all_eq_true.mp hfpall⟩
      conv_lhs => rw [← hdecomp]
      rw [hdw, hc]
    next hcond => exact absurd h (by simp)

theorem parseAmount_invalid_iff (s : List Char) :
    parseAmount s = Except.error AmountParseError.InvalidFormat ↔
      matchShape s = none := by
  constructor
  · intro h
    rcases hms : matchShape s with _ | ⟨ip, fpOpt⟩
    · rfl
    · simp only [parseAmount, hms] at h
      split at h
      · exact absurd h (by simp)
      · split at h
        · exact absurd h (by simp)
        · split at h
          · exact absurd h (by simp)
          · exact absurd h (by simp)
  · intro h
    simp only [parseAmount, h]

/-- Claim C8 counterexample: the string ".5" is an empty digit sequence
followed by a separator and one fractional digit, a shape inside the
claim's accepted grammar and not among its listed failure cases, yet the
code's regex requires at least one integer digit and parse returns
InvalidFormat on it. -/
theorem parse_dot_five_cex :
    parseAmount ['.', '5'] = Except.error AmountParseError.InvalidFormat ∧
    isDigitChar '5' = true ∧
    ('.' :: ['5'] : List Char) = [] ++ '.' :: ['5'] :=
  ⟨rfl, rfl, rfl⟩

/-- Claim C8 amended: restricted to ASCII strings — on which the regex
crate's Unicode-aware `\d` coincides with `[0-9]` and the panicking
catch-all arm of the u64 error mapping is unreachable — parse accepts
exactly the strings made of a nonempty sequence of digits (leading zeroes
permitted and dropped), optionally followed by a separator and a 1–4 digit
fractional part, and returns InvalidFormat for every ASCII string of any
other shape — in particular for an empty digit sequence (bare or before a
separator), 5 or more fractional digits, any non-digit character, or a
separator with no digits after it.  Non-ASCII input is outside the claim:
a non-ASCII Unicode decimal digit matches the source regex and the program
then panics rather than returning InvalidFormat. -/
theorem parse_accepts_exactly (s : List Char)
    (hascii : ∀ c ∈ s, c.toNat < 128) :
    parseAmount s ≠ Except.error AmountParseError.InvalidFormat ↔
      ValidShape s := by
  constructor
  · intro h
    rcases hms : matchShape s with _ | ⟨x⟩
    · exact absurd ((parseAmount_invalid_iff s).mpr hms) h
    · exact matchShape_some_shape hms
  · intro hvs habs
    rw [parseAmount_invalid_iff] at habs
    rcases hvs with ⟨hne, hd⟩ | ⟨ip, fp, rfl, hipne, hipd, hfpne, hfplen, hfpd⟩
    · rw [matchShape_int hne hd] at habs
      exact Option.noConfusion habs
    · rw [matchShape_frac hipne hipd hfpne hfplen hfpd] at habs
      exact Option.noConfusion habs

theorem parse_accepts_exactly_witness :
    ((parseAmount ['1', '2', '.', '5'] ≠
        Except.error AmountParseError.InvalidFormat) ↔
      ValidShape ['1', '2', '.', '5']) ∧
    ((parseAmount ['1', '2', '.'] ≠
        Except.error AmountParseError.InvalidFormat) ↔
      ValidShape ['1', '2', '.']) :=
  ⟨parse_accepts_exactly ['1', '2', '.', '5'] (by decide),
    parse_accepts_exactly ['1', '2', '.'] (by decide)⟩
